import Mathlib

/-!
A two-round Feistel toy cipher and its exhaustive key search.

Shallow embedding of `Pract-1/sdes.c` (the cipher) and `Pract-2/brute_force.c`
(the same cipher, duplicated, plus the key search in `main`).

Conventions of the embedding.

* `byte` (`unsigned char`) and `uint` values are natural numbers.  Where a C
  expression of type `int` is stored into a `byte` and may carry bits above
  bit 8, the store is written `% 256`.
* `~x` on a 32-bit `int` is the two's complement bit pattern `4294967295 - x`;
  it is only ever combined by `&` with a non-negative value.
* Arrays are lists, read with `List.getD`; the C code reads them in bounds only.
* `position - 1` is a subtraction of naturals: the C code passes positions
  `1..8` only (a position `0` would be an undefined shift in C).
-/

namespace Sdes

/-- Initial permutation table, `sdes.c` line 11. -/
def IP : List Nat := [2, 6, 3, 1, 4, 8, 5, 7]

/-- Final permutation table, `sdes.c` line 12. -/
def IP_inverse : List Nat := [4, 1, 3, 5, 7, 2, 8, 6]

/-- First substitution box, `sdes.c` lines 16-21. -/
def SBOX1 : List (List Nat) :=
  [[1, 0, 3, 2],
   [3, 2, 1, 0],
   [0, 2, 1, 3],
   [3, 1, 0, 2]]

/-- Second substitution box, `sdes.c` lines 23-28. -/
def SBOX2 : List (List Nat) :=
  [[0, 1, 2, 3],
   [2, 3, 1, 0],
   [3, 0, 1, 2],
   [2, 1, 0, 3]]

/-- Two-dimensional array read `box[row][col]`. -/
def sbox_at (box : List (List Nat)) (row col : Nat) : Nat :=
  (box.getD row []).getD col 0

/-- Function `get_bit`: `(data >> (position - 1)) & 1`. -/
def get_bit (data position : Nat) : Nat :=
  (data >>> (position - 1)) &&& 1

/-- Function `set_bit`: sets or clears bit `position` (1-based); the `int` result is
stored into a `byte`. -/
def set_bit (data position value : Nat) : Nat :=
  if value ≠ 0 then
    (data ||| (1 <<< (position - 1))) % 256
  else
    (data &&& (4294967295 - (1 <<< (position - 1)))) % 256

/-- Function `permute`: the `for (i = 0; i < size; i++)` loop, with `result` as the
accumulator. -/
def permute (data : Nat) (permutation_table : List Nat) (size : Nat) : Nat :=
  (List.range size).foldl
    (fun result i => set_bit result (i + 1) (get_bit data (permutation_table.getD i 0)))
    0

/-- Function `split_byte`: the pair `(*left, *right)` written through the two pointers. -/
def split_byte (data : Nat) : Nat × Nat :=
  ((data >>> 4) &&& 0x0F, data &&& 0x0F)

/-- Function `combine_bytes`: `(left << 4) | right`, stored into a `byte`. -/
def combine_bytes (left right : Nat) : Nat :=
  ((left <<< 4) ||| right) % 256

/-- Function `f_function`, the round function. -/
def f_function (right_half key : Nat) : Nat :=
  let expanded := (((right_half &&& 0x0F) <<< 4) ||| (right_half &&& 0x0F)) % 256
  let xored := (expanded ^^^ key) % 256
  let (left, right) := split_byte xored
  let s1_result := sbox_at SBOX1 (left >>> 2) (left &&& 0x03)
  let s2_result := sbox_at SBOX2 (right >>> 2) (right &&& 0x03)
  ((s1_result <<< 2) ||| s2_result) % 256

/-- Function `encrypt`, `sdes.c` lines 90-121. -/
def encrypt (plaintext key : Nat) : Nat :=
  let current_data := permute plaintext IP 8
  let (left, right) := split_byte current_data
  let round_key := (key &&& 0xFF) % 256
  let f_result := f_function right round_key
  let new_right := (left ^^^ f_result) % 256
  let new_left := right
  let left := new_left
  let right := new_right
  let f_result := f_function right round_key
  let new_right := (left ^^^ f_result) % 256
  let new_left := right
  let current_data := combine_bytes new_left new_right
  permute current_data IP_inverse 8

/-- Function `main` of `sdes.c`, lines 124-130: the ciphertext of the built-in
plaintext under the built-in key (the value then printed). -/
def main : Nat :=
  let plaintext := 0b11010111
  let key := 0b1010000010
  encrypt plaintext key

/-- The cipher as the specification words it: initial permutation, upper and
lower nibble, the round key `k & 0xFF` used in both rounds, two Feistel steps
`(L, R) ↦ (R, L XOR F(R, rk))`, packing `(L2 << 4) | R2`, final permutation. -/
def encrypt_reference (p k : Nat) : Nat :=
  let x := permute p IP 8
  let L0 := x / 16
  let R0 := x % 16
  let rk := k &&& 0xFF
  let L1 := R0
  let R1 := L0 ^^^ f_function R0 rk
  let L2 := R1
  let R2 := L1 ^^^ f_function R1 rk
  permute ((L2 <<< 4) ||| R2) IP_inverse 8

/-- The halves held by `encrypt` of `sdes.c`: `(left, right)` after the split
(line 96), after round one (lines 108-109), and `(new_left, new_right)` after
round two (lines 113-114), the pair handed to `combine_bytes`. -/
def encrypt_halves (plaintext key : Nat) : (Nat × Nat) × (Nat × Nat) × (Nat × Nat) :=
  let current_data := permute plaintext IP 8
  let (left0, right0) := split_byte current_data
  let round_key := (key &&& 0xFF) % 256
  let f_result := f_function right0 round_key
  let new_right := (left0 ^^^ f_result) % 256
  let new_left := right0
  let left := new_left
  let right := new_right
  let f_result := f_function right round_key
  let new_right := (left ^^^ f_result) % 256
  let new_left := right
  ((left0, right0), (left, right), (new_left, new_right))

/-! The same functions of `sdes.c` with every array read and every shift
checked: `none` stands for a read outside an array or a bit position outside
`1..8` (a shift amount outside `0..7`). -/

/-- Checked array read `box[row][col]`: `none` when `row` or `col` is outside
the table. -/
def sbox_at_checked (box : List (List Nat)) (row col : Nat) : Option Nat :=
  match box.get? row with
  | none => none
  | some line => line.get? col

/-- Checked `get_bit`: `none` when `position` is outside `1..8`. -/
def get_bit_checked (data position : Nat) : Option Nat :=
  if 1 ≤ position ∧ position ≤ 8 then
    some ((data >>> (position - 1)) &&& 1)
  else
    none

/-- Checked `set_bit`: `none` when `position` is outside `1..8`. -/
def set_bit_checked (data position value : Nat) : Option Nat :=
  if 1 ≤ position ∧ position ≤ 8 then
    if value ≠ 0 then
      some ((data ||| (1 <<< (position - 1))) % 256)
    else
      some ((data &&& (4294967295 - (1 <<< (position - 1)))) % 256)
  else
    none

/-- Checked `permute`: the loop fails as soon as `permutation_table[i]` lies
outside the table or the position read from it is outside `1..8`. -/
def permute_checked (data : Nat) (permutation_table : List Nat) (size : Nat) : Option Nat :=
  (List.range size).foldlM
    (fun result i =>
      match permutation_table.get? i with
      | none => none
      | some position =>
        match get_bit_checked data position with
        | none => none
        | some bit => set_bit_checked result (i + 1) bit)
    0

/-- Checked `f_function`: fails when an S-box row or column is outside `0..3`. -/
def f_function_checked (right_half key : Nat) : Option Nat :=
  let expanded := (((right_half &&& 0x0F) <<< 4) ||| (right_half &&& 0x0F)) % 256
  let xored := (expanded ^^^ key) % 256
  let (left, right) := split_byte xored
  match sbox_at_checked SBOX1 (left >>> 2) (left &&& 0x03) with
  | none => none
  | some s1_result =>
    match sbox_at_checked SBOX2 (right >>> 2) (right &&& 0x03) with
    | none => none
    | some s2_result => some (((s1_result <<< 2) ||| s2_result) % 256)

/-- Checked `encrypt`: fails when any step inside it fails. -/
def encrypt_checked (plaintext key : Nat) : Option Nat :=
  match permute_checked plaintext IP 8 with
  | none => none
  | some current_data =>
    let (left, right) := split_byte current_data
    let round_key := (key &&& 0xFF) % 256
    match f_function_checked right round_key with
    | none => none
    | some f_result =>
      let new_right := (left ^^^ f_result) % 256
      let new_left := right
      let left := new_left
      let right := new_right
      match f_function_checked right round_key with
      | none => none
      | some f_result =>
        let new_right := (left ^^^ f_result) % 256
        let new_left := right
        let current_data := combine_bytes new_left new_right
        permute_checked current_data IP_inverse 8

end Sdes

namespace BruteForce

/-- Initial permutation table, `brute_force.c` line 6. -/
def IP : List Nat := [2, 6, 3, 1, 4, 8, 5, 7]

/-- Final permutation table, `brute_force.c` line 7. -/
def IP_inverse : List Nat := [4, 1, 3, 5, 7, 2, 8, 6]

/-- First substitution box, `brute_force.c` lines 9-14. -/
def SBOX1 : List (List Nat) :=
  [[1, 0, 3, 2],
   [3, 2, 1, 0],
   [0, 2, 1, 3],
   [3, 1, 0, 2]]

/-- Second substitution box, `brute_force.c` lines 16-21. -/
def SBOX2 : List (List Nat) :=
  [[0, 1, 2, 3],
   [2, 3, 1, 0],
   [3, 0, 1, 2],
   [2, 1, 0, 3]]

/-- Two-dimensional array read `box[row][col]`. -/
def sbox_at (box : List (List Nat)) (row col : Nat) : Nat :=
  (box.getD row []).getD col 0

/-- Function `get_bit`: `(data >> (position - 1)) & 1`. -/
def get_bit (data position : Nat) : Nat :=
  (data >>> (position - 1)) &&& 1

/-- Function `set_bit`: sets or clears bit `position` (1-based); the `int` result is
stored into a `byte`. -/
def set_bit (data position value : Nat) : Nat :=
  if value ≠ 0 then
    (data ||| (1 <<< (position - 1))) % 256
  else
    (data &&& (4294967295 - (1 <<< (position - 1)))) % 256

/-- Function `permute`: the `for (i = 0; i < size; i++)` loop, with `result` as the
accumulator. -/
def permute (data : Nat) (permutation_table : List Nat) (size : Nat) : Nat :=
  (List.range size).foldl
    (fun result i => set_bit result (i + 1) (get_bit data (permutation_table.getD i 0)))
    0

/-- Function `split_byte`: the pair `(*left, *right)` written through the two pointers. -/
def split_byte (data : Nat) : Nat × Nat :=
  ((data >>> 4) &&& 0x0F, data &&& 0x0F)

/-- Function `combine_bytes`: `(left << 4) | right`, stored into a `byte`. -/
def combine_bytes (left right : Nat) : Nat :=
  ((left <<< 4) ||| right) % 256

/-- Function `f_function`, the round function. -/
def f_function (right_half key : Nat) : Nat :=
  let expanded := (((right_half &&& 0x0F) <<< 4) ||| (right_half &&& 0x0F)) % 256
  let xored := (expanded ^^^ key) % 256
  let (left, right) := split_byte xored
  let s1_result := sbox_at SBOX1 (left >>> 2) (left &&& 0x03)
  let s2_result := sbox_at SBOX2 (right >>> 2) (right &&& 0x03)
  ((s1_result <<< 2) ||| s2_result) % 256

/-- Function `encrypt`, `brute_force.c` lines 62-77. -/
def encrypt (plaintext key : Nat) : Nat :=
  let current_data := permute plaintext IP 8
  let (left, right) := split_byte current_data
  let round_key := (key &&& 0xFF) % 256
  let f_result := f_function right round_key
  let new_right := (left ^^^ f_result) % 256
  let new_left := right
  let left := new_left
  let right := new_right
  let f_result := f_function right round_key
  let new_right := (left ^^^ f_result) % 256
  let new_left := right
  let current_data := combine_bytes new_left new_right
  permute current_data IP_inverse 8

/-- The search loop of `main`, `brute_force.c` lines 89-98, entered with the
loop variable at `candidate_key`.  The result is the key printed after
`Found key:` (the loop then breaks), or `none` when the loop runs off the end
without printing a key. -/
def brute_force_loop (plaintext target_ciphertext candidate_key : Nat) : Option Nat :=
  if candidate_key < 1024 then
    let candidate_cipher := encrypt plaintext candidate_key
    if candidate_cipher = target_ciphertext then
      some candidate_key
    else
      brute_force_loop plaintext target_ciphertext (candidate_key + 1)
  else
    none
termination_by 1024 - candidate_key

/-- The key search for a given plaintext and target: the loop of `main`
started at `candidate_key = 0`. -/
def recover_key (plaintext target_ciphertext : Nat) : Option Nat :=
  brute_force_loop plaintext target_ciphertext 0

/-- Function `main` of `brute_force.c`: the search run on the built-in plaintext and on
the ciphertext of the built-in key. -/
def main : Option Nat :=
  let plaintext := 0b11010111
  let target_ciphertext := encrypt plaintext 0b1010000010
  recover_key plaintext target_ciphertext

/-- The search loop of `main` with the calls of `encrypt` recorded: the result
of the loop together with the candidate keys on which `encrypt` was called, in
call order. -/
def brute_force_loop_traced (plaintext target_ciphertext candidate_key : Nat) :
    Option Nat × List Nat :=
  if candidate_key < 1024 then
    let candidate_cipher := encrypt plaintext candidate_key
    if candidate_cipher = target_ciphertext then
      (some candidate_key, [candidate_key])
    else
      let rest := brute_force_loop_traced plaintext target_ciphertext (candidate_key + 1)
      (rest.1, candidate_key :: rest.2)
  else
    (none, [])
termination_by 1024 - candidate_key

/-- The traced search started at `candidate_key = 0`. -/
def recover_key_traced (plaintext target_ciphertext : Nat) : Option Nat × List Nat :=
  brute_force_loop_traced plaintext target_ciphertext 0

end BruteForce

/-! ## The search loop -/

theorem brute_force_loop_unfold (p c s : Nat) :
    BruteForce.brute_force_loop p c s =
      if s < 1024 then
        if BruteForce.encrypt p s = c then some s
        else BruteForce.brute_force_loop p c (s + 1)
      else none := by
  rw [BruteForce.brute_force_loop]

theorem brute_force_loop_sound (p c : Nat) :
    ∀ n s k, 1024 - s = n → BruteForce.brute_force_loop p c s = some k →
      s ≤ k ∧ k < 1024 ∧ BruteForce.encrypt p k = c ∧
        ∀ j, s ≤ j → j < k → BruteForce.encrypt p j ≠ c := by
  intro n
  induction n with
  | zero =>
    intro s k hs h
    rw [brute_force_loop_unfold, if_neg (by omega)] at h
    cases h
  | succ n ih =>
    intro s k hs h
    rw [brute_force_loop_unfold, if_pos (by omega)] at h
    by_cases hm : BruteForce.encrypt p s = c
    · rw [if_pos hm] at h
      cases h
      exact ⟨le_refl _, (by omega), hm, fun j h1 h2 => (by omega)⟩
    · rw [if_neg hm] at h
      obtain ⟨h1, h2, h3, h4⟩ := ih (s + 1) k (by omega) h
      refine ⟨by omega, h2, h3, fun j hj1 hj2 => ?_⟩
      by_cases hjs : j = s
      · subst hjs; exact hm
      · exact h4 j (by omega) hj2

theorem brute_force_loop_complete (p c : Nat) :
    ∀ n s k, k - s = n → s ≤ k → k < 1024 → BruteForce.encrypt p k = c →
      (∀ j, s ≤ j → j < k → BruteForce.encrypt p j ≠ c) →
      BruteForce.brute_force_loop p c s = some k := by
  intro n
  induction n with
  | zero =>
    intro s k hn hsk hk hm _
    have : s = k := by omega
    subst this
    rw [brute_force_loop_unfold, if_pos hk, if_pos hm]
  | succ n ih =>
    intro s k hn hsk hk hm hmin
    rw [brute_force_loop_unfold, if_pos (by omega), if_neg (hmin s (le_refl _) (by omega))]
    exact ih (s + 1) k (by omega) (by omega) hk hm (fun j h1 h2 => hmin j (by omega) h2)

theorem brute_force_loop_none (p c : Nat) :
    ∀ n s, 1024 - s = n →
      (BruteForce.brute_force_loop p c s = none ↔
        ∀ j, s ≤ j → j < 1024 → BruteForce.encrypt p j ≠ c) := by
  intro n
  induction n with
  | zero =>
    intro s hs
    rw [brute_force_loop_unfold, if_neg (by omega)]
    exact ⟨fun _ j h1 h2 => (by omega), fun _ => rfl⟩
  | succ n ih =>
    intro s hs
    rw [brute_force_loop_unfold, if_pos (by omega)]
    by_cases hm : BruteForce.encrypt p s = c
    · rw [if_pos hm]
      exact ⟨fun h => (by cases h), fun h => absurd hm (h s (le_refl _) (by omega))⟩
    · rw [if_neg hm, ih (s + 1) (by omega)]
      constructor
      · intro h j h1 h2
        by_cases hjs : j = s
        · subst hjs; exact hm
        · exact h j (by omega) h2
      · intro h j h1 h2
        exact h j (by omega) h2

/-- The search returns `some k` exactly when `k` is the least key below 1024
whose encryption of the plaintext is the target. -/
theorem recover_key_eq_some_iff (p c k : Nat) :
    BruteForce.recover_key p c = some k ↔
      k < 1024 ∧ BruteForce.encrypt p k = c ∧ ∀ j, j < k → BruteForce.encrypt p j ≠ c := by
  unfold BruteForce.recover_key
  constructor
  · intro h
    obtain ⟨_, h2, h3, h4⟩ := brute_force_loop_sound p c 1024 0 k rfl h
    exact ⟨h2, h3, fun j hj => h4 j (Nat.zero_le _) hj⟩
  · rintro ⟨h1, h2, h3⟩
    exact brute_force_loop_complete p c k 0 k rfl (Nat.zero_le _) h1 h2 (fun j _ hj => h3 j hj)

/-- The search returns `none` exactly when no key below 1024 matches. -/
theorem recover_key_eq_none_iff (p c : Nat) :
    BruteForce.recover_key p c = none ↔ ∀ k, k < 1024 → BruteForce.encrypt p k ≠ c := by
  unfold BruteForce.recover_key
  rw [brute_force_loop_none p c 1024 0 rfl]
  exact ⟨fun h k hk => h k (Nat.zero_le _) hk, fun h k _ hk => h k hk⟩

/-- Whenever some key below 1024 matches, the search returns the least one. -/
theorem recover_key_of_match (p c k : Nat) (hk : k < 1024) (hm : BruteForce.encrypt p k = c) :
    ∃ k0, BruteForce.recover_key p c = some k0 ∧ k0 ≤ k ∧ BruteForce.encrypt p k0 = c ∧
      ∀ j, j < k0 → BruteForce.encrypt p j ≠ c := by
  cases hr : BruteForce.recover_key p c with
  | none => exact absurd hm ((recover_key_eq_none_iff p c).1 hr k hk)
  | some k0 =>
    obtain ⟨h1, h2, h3⟩ := (recover_key_eq_some_iff p c k0).1 hr
    refine ⟨k0, rfl, ?_, h2, h3⟩
    by_contra hlt
    exact h3 k (by omega) hm

/-! ## Bit-level facts -/

theorem and_255_eq_mod (k : Nat) : k &&& 255 = k % 256 :=
  Nat.and_pow_two_sub_one_eq_mod k 8

theorem and_15_eq_mod (k : Nat) : k &&& 15 = k % 16 :=
  Nat.and_pow_two_sub_one_eq_mod k 4

theorem and_3_eq_mod (k : Nat) : k &&& 3 = k % 4 :=
  Nat.and_pow_two_sub_one_eq_mod k 2

theorem and_1_eq_mod (k : Nat) : k &&& 1 = k % 2 :=
  Nat.and_pow_two_sub_one_eq_mod k 1

theorem xor_lt_16 {a b : Nat} (ha : a < 16) (hb : b < 16) : a ^^^ b < 16 :=
  Nat.xor_lt_two_pow (n := 4) ha hb

theorem shl4_lor_lt_256 {a b : Nat} (ha : a < 16) (hb : b < 16) : (a <<< 4) ||| b < 256 := by
  have h1 : a <<< 4 < 2 ^ 8 := by rw [Nat.shiftLeft_eq]; omega
  have h2 : b < 2 ^ 8 := by omega
  exact Nat.or_lt_two_pow h1 h2

theorem sbox1_le_3 (x : Nat) (hx : x < 16) :
    Sdes.sbox_at Sdes.SBOX1 (x >>> 2) (x &&& 3) ≤ 3 := by
  interval_cases x <;> decide

theorem sbox2_le_3 (x : Nat) (hx : x < 16) :
    Sdes.sbox_at Sdes.SBOX2 (x >>> 2) (x &&& 3) ≤ 3 := by
  interval_cases x <;> decide

theorem shl2_lor_lt_16 {a b : Nat} (ha : a ≤ 3) (hb : b ≤ 3) : (a <<< 2) ||| b < 16 := by
  interval_cases a <;> interval_cases b <;> decide

theorem sbox_pair_lt_16 (l r : Nat) (hl : l < 16) (hr : r < 16) :
    ((Sdes.sbox_at Sdes.SBOX1 (l >>> 2) (l &&& 3) <<< 2) |||
      Sdes.sbox_at Sdes.SBOX2 (r >>> 2) (r &&& 3)) % 256 < 16 := by
  have h3 := shl2_lor_lt_16 (sbox1_le_3 l hl) (sbox2_le_3 r hr)
  rw [Nat.mod_eq_of_lt (by omega)]
  exact h3

theorem f_function_lt_16 (right_half key : Nat) : Sdes.f_function right_half key < 16 := by
  unfold Sdes.f_function Sdes.split_byte
  exact sbox_pair_lt_16 _ _ (by rw [and_15_eq_mod]; omega) (by rw [and_15_eq_mod]; omega)

/-! ## The permutation loop -/

theorem get_bit_eq_toNat (data position : Nat) :
    Sdes.get_bit data position = (data.testBit (position - 1)).toNat := by
  unfold Sdes.get_bit
  rw [Nat.toNat_testBit, and_1_eq_mod, Nat.shiftRight_eq_div_pow]

theorem get_bit_ne_zero_iff (data position : Nat) :
    Sdes.get_bit data position ≠ 0 ↔ data.testBit (position - 1) = true := by
  rw [get_bit_eq_toNat]
  cases data.testBit (position - 1) <;> simp

theorem set_bit_lt_256 (data position value : Nat) : Sdes.set_bit data position value < 256 := by
  unfold Sdes.set_bit
  split <;> exact Nat.mod_lt _ (by decide)

theorem testBit_eq_false_of_lt_256 {d j : Nat} (hd : d < 256) (hj : 8 ≤ j) :
    d.testBit j = false := by
  apply Nat.testBit_lt_two_pow
  calc d < 2 ^ 8 := hd
    _ ≤ 2 ^ j := Nat.pow_le_pow_right (by decide) hj

/-- Effect of `set_bit` on each bit, for a byte and a position in `1..8`. -/
theorem testBit_set_bit (d pos value j : Nat) (hd : d < 256) (h1 : 1 ≤ pos) (h8 : pos ≤ 8) :
    (Sdes.set_bit d pos value).testBit j =
      if j = pos - 1 then decide (value ≠ 0) else d.testBit j := by
  unfold Sdes.set_bit
  have h256 : (256 : Nat) = 2 ^ 8 := by norm_num
  by_cases hv : value ≠ 0
  · rw [if_pos hv, h256, Nat.testBit_mod_two_pow, Nat.testBit_or, Nat.one_shiftLeft,
      Nat.testBit_two_pow]
    by_cases hj : j = pos - 1
    · subst hj
      have : pos - 1 < 8 := by omega
      simp [hv, this]
    · have hj2 : ¬ (pos - 1 = j) := fun h => hj h.symm
      rw [if_neg hj]
      by_cases hj8 : j < 8
      · simp [hj8, hj2]
      · simp [hj8, hj2, testBit_eq_false_of_lt_256 hd (by omega : 8 ≤ j)]
  · rw [if_neg hv, h256, Nat.testBit_mod_two_pow, Nat.testBit_and, Nat.one_shiftLeft]
    have hpow : 2 ^ (pos - 1) < 2 ^ 32 := Nat.pow_lt_pow_right (by decide) (by omega)
    have hc : 4294967295 - 2 ^ (pos - 1) = 2 ^ 32 - (2 ^ (pos - 1) + 1) := by
      norm_num
      omega
    rw [hc, Nat.testBit_two_pow_sub_succ hpow, Nat.testBit_two_pow]
    by_cases hj : j = pos - 1
    · subst hj
      simp [hv]
    · have hj2 : ¬ (pos - 1 = j) := fun h => hj h.symm
      rw [if_neg hj]
      by_cases hj8 : j < 8
      · have : j < 32 := by omega
        simp [hj8, hj2, this]
      · simp [hj8, testBit_eq_false_of_lt_256 hd (by omega : 8 ≤ j)]

theorem permute_zero (data : Nat) (T : List Nat) : Sdes.permute data T 0 = 0 := rfl

theorem permute_succ (data : Nat) (T : List Nat) (n : Nat) :
    Sdes.permute data T (n + 1) =
      Sdes.set_bit (Sdes.permute data T n) (n + 1) (Sdes.get_bit data (T.getD n 0)) := by
  unfold Sdes.permute
  rw [List.range_succ, List.foldl_append]
  rfl

theorem permute_lt_256 (data : Nat) (T : List Nat) (n : Nat) : Sdes.permute data T n < 256 := by
  cases n with
  | zero => rw [permute_zero]; decide
  | succ n => rw [permute_succ]; exact set_bit_lt_256 _ _ _

/-- Loop invariant of `permute`: after `n ≤ 8` iterations, bit `j` of the
accumulator is the bit read for table entry `j` when `j < n`, and clear otherwise. -/
theorem testBit_permute (data : Nat) (T : List Nat) (n : Nat) (hn : n ≤ 8) (j : Nat) :
    (Sdes.permute data T n).testBit j =
      (decide (j < n) && data.testBit (T.getD j 0 - 1)) := by
  induction n generalizing j with
  | zero => simp [permute_zero]
  | succ n ih =>
    rw [permute_succ, testBit_set_bit _ _ _ _ (permute_lt_256 data T n) (by omega) hn]
    by_cases hj : j = n
    · subst hj
      rw [if_pos (by omega)]
      generalize T.getD j 0 = t
      rw [get_bit_eq_toNat]
      cases data.testBit (t - 1) <;> simp
    · have hj2 : ¬ (j = n + 1 - 1) := by omega
      rw [if_neg hj2, ih (by omega)]
      by_cases hlt : j < n
      · have : j < n + 1 := by omega
        simp [hlt, this]
      · have : ¬ j < n + 1 := by omega
        simp [hlt, this]

/-! ## The cipher -/

theorem split_byte_eq (x : Nat) (hx : x < 256) : Sdes.split_byte x = (x / 16, x % 16) := by
  unfold Sdes.split_byte
  rw [and_15_eq_mod, and_15_eq_mod, Nat.shiftRight_eq_div_pow]
  have : x / 2 ^ 4 % 16 = x / 16 := by norm_num; omega
  rw [this]

/-- The key enters `encrypt` only through its low byte. -/
theorem encrypt_key_mod (p k : Nat) : Sdes.encrypt p k = Sdes.encrypt p (k % 256) := by
  have h : (k % 256 &&& 0xFF) % 256 = (k &&& 0xFF) % 256 := by
    rw [and_255_eq_mod, and_255_eq_mod]
    omega
  unfold Sdes.encrypt
  simp only [h]

/-- The two copies of the cipher are the same function. -/
theorem bruteforce_encrypt_eq (p k : Nat) : BruteForce.encrypt p k = Sdes.encrypt p k := rfl

/-- The tables `IP` and `IP_inverse` undo one another on every byte. -/
theorem ip_then_ip_inverse (v : Nat) (hv : v < 256) :
    Sdes.permute (Sdes.permute v Sdes.IP 8) Sdes.IP_inverse 8 = v := by
  apply Nat.eq_of_testBit_eq
  intro j
  rw [testBit_permute _ _ 8 (le_refl _), testBit_permute _ _ 8 (le_refl _)]
  by_cases hj : j < 8
  · interval_cases j <;> simp [Sdes.IP, Sdes.IP_inverse]
  · have hf : v.testBit j = false := testBit_eq_false_of_lt_256 hv (by omega)
    simp [hj, hf]

theorem encrypt_eq_reference (p k : Nat) : Sdes.encrypt p k = Sdes.encrypt_reference p k := by
  unfold Sdes.encrypt Sdes.encrypt_reference
  have hx := permute_lt_256 p Sdes.IP 8
  simp only [split_byte_eq _ hx]
  generalize Sdes.permute p Sdes.IP 8 = x at hx
  have hk : (k &&& 0xFF) % 256 = k &&& 0xFF :=
    Nat.mod_eq_of_lt (by rw [and_255_eq_mod]; omega)
  rw [hk]
  generalize k &&& 0xFF = rk
  have hL0 : x / 16 < 16 := by omega
  have hR0 : x % 16 < 16 := by omega
  have h1 := xor_lt_16 hL0 (f_function_lt_16 (x % 16) rk)
  rw [Nat.mod_eq_of_lt (lt_trans h1 (by decide))]
  generalize x / 16 ^^^ Sdes.f_function (x % 16) rk = R1 at h1
  have h2 := xor_lt_16 hR0 (f_function_lt_16 R1 rk)
  rw [Nat.mod_eq_of_lt (lt_trans h2 (by decide))]
  unfold Sdes.combine_bytes
  rw [Nat.mod_eq_of_lt (shl4_lor_lt_256 h1 h2)]

/-! ## The claims -/

/-- C1 (key-bit irrelevance): for every plaintext `p` and every key `k`,
`encrypt p k` is `encrypt p (k mod 256)`, and adding 256, 512 or 768 to the key
leaves the ciphertext unchanged; the two high bits of a 10-bit key never
affect the output. -/
theorem C1_key_bit_irrelevance (p k : Nat) :
    Sdes.encrypt p k = Sdes.encrypt p (k % 256) ∧
    Sdes.encrypt p k = Sdes.encrypt p (k + 256) ∧
    Sdes.encrypt p k = Sdes.encrypt p (k + 512) ∧
    Sdes.encrypt p k = Sdes.encrypt p (k + 768) := by
  refine ⟨encrypt_key_mod p k, ?_, ?_, ?_⟩
  · rw [encrypt_key_mod p k, encrypt_key_mod p (k + 256)]
    congr 1
    omega
  · rw [encrypt_key_mod p k, encrypt_key_mod p (k + 512)]
    congr 1
    omega
  · rw [encrypt_key_mod p k, encrypt_key_mod p (k + 768)]
    congr 1
    omega

/-- C2, as stated, fails: for plaintext `0xD7` and key `133` the search on
`encrypt 0xD7 133` returns `130`, not `133 mod 256 = 133`, because keys `130`
and `133` give the same ciphertext. -/
theorem C2_counterexample :
    215 < 256 ∧ 133 < 1024 ∧
    BruteForce.recover_key 215 (BruteForce.encrypt 215 133) = some 130 ∧
    BruteForce.recover_key 215 (BruteForce.encrypt 215 133) ≠ some (133 % 256) := by
  have h : BruteForce.recover_key 215 (BruteForce.encrypt 215 133) = some 130 :=
    (recover_key_eq_some_iff 215 _ 130).2 ⟨by decide, by decide, by decide⟩
  refine ⟨by decide, by decide, h, ?_⟩
  rw [h]
  decide

/-- C2 (amended): for every plaintext `p` and every key `k` (in particular
every `k` in `0..1023`), the search on `encrypt p k` returns the least key `k0`
whose encryption of `p` equals `encrypt p k`; this `k0` is at most `k mod 256`. -/
theorem C2_recovery_least_match (p k : Nat) :
    ∃ k0, BruteForce.recover_key p (BruteForce.encrypt p k) = some k0 ∧
      k0 ≤ k % 256 ∧
      BruteForce.encrypt p k0 = BruteForce.encrypt p k ∧
      ∀ j, j < k0 → BruteForce.encrypt p j ≠ BruteForce.encrypt p k := by
  have hm : BruteForce.encrypt p (k % 256) = BruteForce.encrypt p k := by
    rw [bruteforce_encrypt_eq, bruteforce_encrypt_eq]
    exact (encrypt_key_mod p k).symm
  exact recover_key_of_match p _ (k % 256) (by omega) hm

/-- C3 (smallest-match contract): if the search on plaintext `p` and target
`c` returns a key `k`, then `encrypt p k = c`, `k` is below 1024, and no smaller
key encrypts `p` to `c`. -/
theorem C3_smallest_match (p c k : Nat) (h : BruteForce.recover_key p c = some k) :
    BruteForce.encrypt p k = c ∧ k < 1024 ∧
      ∀ j, j < k → BruteForce.encrypt p j ≠ c := by
  obtain ⟨h1, h2, h3⟩ := (recover_key_eq_some_iff p c k).1 h
  exact ⟨h2, h1, h3⟩

theorem C3_smallest_match_witness :
    BruteForce.recover_key 215 27 = some 130 ∧
    (BruteForce.encrypt 215 130 = 27 ∧ 130 < 1024 ∧
      ∀ j, j < 130 → BruteForce.encrypt 215 j ≠ 27) :=
  have h : BruteForce.recover_key 215 27 = some 130 :=
    (recover_key_eq_some_iff 215 27 130).2 ⟨by decide, by decide, by decide⟩
  ⟨h, C3_smallest_match 215 27 130 h⟩

/-- C4 (reference vector): with plaintext `0xD7` and key `0x282`, the search
on the ciphertext `encrypt 0xD7 0x282` returns `0x082 = 130`, which is the
least value below 1024 whose low byte is `0x82`; this is what `main` of
`brute_force.c` computes, on the ciphertext that `main` of `sdes.c` prints. -/
theorem C4_reference_vector :
    BruteForce.recover_key 0xD7 (BruteForce.encrypt 0xD7 0x282) = some 0x082 ∧
    BruteForce.main = some 130 ∧
    Sdes.main = BruteForce.encrypt 0xD7 0x282 ∧
    0x082 % 256 = 0x82 ∧ (∀ j, j < 1024 → j % 256 = 0x82 → 0x082 ≤ j) := by
  have h : BruteForce.recover_key 0xD7 (BruteForce.encrypt 0xD7 0x282) = some 0x082 :=
    (recover_key_eq_some_iff _ _ _).2 ⟨by decide, by decide, by decide⟩
  refine ⟨h, h, by decide, by decide, ?_⟩
  intro j _ hj
  omega

/-- C5 (no failure on an engine-produced target): for every plaintext `p` and
every key `k` in `0..1023`, the search on `encrypt p k` does not return the
absent result; it returns a key `k0` with `k0 ≤ k` and
`encrypt p k0 = encrypt p k`. -/
theorem C5_search_finds_engine_target (p k : Nat) (hk : k < 1024) :
    BruteForce.recover_key p (BruteForce.encrypt p k) ≠ none ∧
    ∃ k0, BruteForce.recover_key p (BruteForce.encrypt p k) = some k0 ∧
      k0 ≤ k ∧ BruteForce.encrypt p k0 = BruteForce.encrypt p k := by
  obtain ⟨k0, h1, h2, h3, _⟩ := recover_key_of_match p (BruteForce.encrypt p k) k hk rfl
  refine ⟨?_, k0, h1, h2, h3⟩
  rw [h1]
  exact Option.some_ne_none k0

theorem C5_search_finds_engine_target_witness :
    642 < 1024 ∧
    (BruteForce.recover_key 215 (BruteForce.encrypt 215 642) ≠ none ∧
      ∃ k0, BruteForce.recover_key 215 (BruteForce.encrypt 215 642) = some k0 ∧
        k0 ≤ 642 ∧ BruteForce.encrypt 215 k0 = BruteForce.encrypt 215 642) :=
  ⟨by decide, C5_search_finds_engine_target 215 642 (by decide)⟩

/-- C6 (absent result iff no match): for every plaintext `p` and target `c`,
the search reports no key exactly when no key below 1024 encrypts `p` to `c`;
and when no key matches, the result is not key 0. -/
theorem C6_absent_iff_no_match (p c : Nat) :
    (BruteForce.recover_key p c = none ↔
      ∀ k, k < 1024 → BruteForce.encrypt p k ≠ c) ∧
    ((∀ k, k < 1024 → BruteForce.encrypt p k ≠ c) →
      BruteForce.recover_key p c ≠ some 0) := by
  refine ⟨recover_key_eq_none_iff p c, fun h => ?_⟩
  rw [(recover_key_eq_none_iff p c).2 h]
  exact fun hc => Option.noConfusion hc

/-- C7 (reference algorithm): for every plaintext `p` and key `k`, `encrypt`
of `sdes.c` equals the algorithm of the specification: permute by `IP`, split
into upper and lower nibble, run the step `(L, R) ↦ (R, L XOR F(R, rk))` twice
with the one round key `rk = k & 0xFF`, pack as `(L2 << 4) | R2`, permute by
`IP_inverse`. -/
theorem C7_encrypt_is_reference (p k : Nat) :
    Sdes.encrypt p k = Sdes.encrypt_reference p k :=
  encrypt_eq_reference p k

/-- C8 (permutation bit rule): for every byte `v`, every table `T` of 8
entries each in `1..8`, and every output position `i` in `1..8`, bit `i` of
`permute v T 8` equals bit `T[i]` (1-based entry `i`) of `v`, and
`permute v T 8` is below 256. -/
theorem C8_permute_bit_rule (v : Nat) (T : List Nat) (i : Nat)
    (_hv : v < 256) (_hlen : T.length = 8) (_hT : ∀ t, t ∈ T → 1 ≤ t ∧ t ≤ 8)
    (hi1 : 1 ≤ i) (hi8 : i ≤ 8) :
    (Sdes.permute v T 8 >>> (i - 1)) &&& 1 = (v >>> (T.getD (i - 1) 0 - 1)) &&& 1 ∧
    Sdes.permute v T 8 < 256 := by
  refine ⟨?_, permute_lt_256 v T 8⟩
  have h := testBit_permute v T 8 (le_refl _) (i - 1)
  have hlt : i - 1 < 8 := by omega
  rw [decide_eq_true hlt, Bool.true_and] at h
  have h1 := get_bit_eq_toNat (Sdes.permute v T 8) i
  have h2 := get_bit_eq_toNat v (T.getD (i - 1) 0)
  unfold Sdes.get_bit at h1 h2
  rw [h1, h2, h]

theorem C8_permute_bit_rule_witness :
    215 < 256 ∧ Sdes.IP.length = 8 ∧ (∀ t, t ∈ Sdes.IP → 1 ≤ t ∧ t ≤ 8) ∧ 1 ≤ 3 ∧ 3 ≤ 8 ∧
    ((Sdes.permute 215 Sdes.IP 8 >>> (3 - 1)) &&& 1 =
        (215 >>> (Sdes.IP.getD (3 - 1) 0 - 1)) &&& 1 ∧
      Sdes.permute 215 Sdes.IP 8 < 256) :=
  ⟨by decide, by decide, by decide, by decide, by decide,
    C8_permute_bit_rule 215 Sdes.IP 3 (by decide) (by decide) (by decide) (by decide)
      (by decide)⟩

/-- C9, as stated, fails: no byte `v` has `permute (permute v IP) IP_inverse ≠ v`. -/
theorem C9_counterexample :
    ¬ ∃ v, v < 256 ∧ Sdes.permute (Sdes.permute v Sdes.IP 8) Sdes.IP_inverse 8 ≠ v := by
  rintro ⟨v, hv, hne⟩
  exact hne (ip_then_ip_inverse v hv)

/-- C9 (amended): applying `IP` and then `IP_inverse` is the identity on
bytes: for every 8-bit value `v`, `permute (permute v IP 8) IP_inverse 8 = v`. -/
theorem C9_ip_then_ip_inverse_is_identity (v : Nat) (hv : v < 256) :
    Sdes.permute (Sdes.permute v Sdes.IP 8) Sdes.IP_inverse 8 = v :=
  ip_then_ip_inverse v hv

theorem C9_ip_then_ip_inverse_is_identity_witness :
    215 < 256 ∧ Sdes.permute (Sdes.permute 215 Sdes.IP 8) Sdes.IP_inverse 8 = 215 :=
  ⟨by decide, C9_ip_then_ip_inverse_is_identity 215 (by decide)⟩

/-- C10 (S-box and round-function range): for every 4-bit input `x`, the
lookups `SBOX1[x >> 2][x & 3]` and `SBOX2[x >> 2][x & 3]` are at most 3; and for
every `right_half` and `key` (bytes in particular), `f_function right_half key`
is below 16. -/
theorem C10_sbox_and_round_range (x right_half key : Nat) (hx : x < 16) :
    Sdes.sbox_at Sdes.SBOX1 (x >>> 2) (x &&& 3) ≤ 3 ∧
    Sdes.sbox_at Sdes.SBOX2 (x >>> 2) (x &&& 3) ≤ 3 ∧
    Sdes.f_function right_half key < 16 :=
  ⟨sbox1_le_3 x hx, sbox2_le_3 x hx, f_function_lt_16 right_half key⟩

theorem C10_sbox_and_round_range_witness :
    13 < 16 ∧
    (Sdes.sbox_at Sdes.SBOX1 (13 >>> 2) (13 &&& 3) ≤ 3 ∧
      Sdes.sbox_at Sdes.SBOX2 (13 >>> 2) (13 &&& 3) ≤ 3 ∧
      Sdes.f_function 7 130 < 16) :=
  ⟨by decide, C10_sbox_and_round_range 13 7 130 (by decide)⟩

/-! ## The checked cipher -/

theorem sbox1_checked_eq (l : Nat) (hl : l < 16) :
    Sdes.sbox_at_checked Sdes.SBOX1 (l >>> 2) (l &&& 3) =
      some (Sdes.sbox_at Sdes.SBOX1 (l >>> 2) (l &&& 3)) := by
  interval_cases l <;> rfl

theorem sbox2_checked_eq (r : Nat) (hr : r < 16) :
    Sdes.sbox_at_checked Sdes.SBOX2 (r >>> 2) (r &&& 3) =
      some (Sdes.sbox_at Sdes.SBOX2 (r >>> 2) (r &&& 3)) := by
  interval_cases r <;> rfl

theorem f_function_checked_eq (right_half key : Nat) :
    Sdes.f_function_checked right_half key = some (Sdes.f_function right_half key) := by
  unfold Sdes.f_function_checked Sdes.f_function Sdes.split_byte
  simp only []
  rw [sbox1_checked_eq _ (by rw [and_15_eq_mod]; omega),
    sbox2_checked_eq _ (by rw [and_15_eq_mod]; omega)]

theorem get_bit_checked_eq (data position : Nat) (h1 : 1 ≤ position) (h8 : position ≤ 8) :
    Sdes.get_bit_checked data position = some (Sdes.get_bit data position) := by
  unfold Sdes.get_bit_checked Sdes.get_bit
  rw [if_pos ⟨h1, h8⟩]

theorem set_bit_checked_eq (data position value : Nat) (h1 : 1 ≤ position)
    (h8 : position ≤ 8) :
    Sdes.set_bit_checked data position value = some (Sdes.set_bit data position value) := by
  unfold Sdes.set_bit_checked Sdes.set_bit
  rw [if_pos ⟨h1, h8⟩]
  split <;> rfl

/-- A table is well formed when its first 8 entries exist and lie in `1..8`. -/
theorem permute_checked_eq (data : Nat) (T : List Nat)
    (hT : ∀ i, i < 8 → ∃ e, T.get? i = some e ∧ 1 ≤ e ∧ e ≤ 8) (n : Nat) (hn : n ≤ 8) :
    Sdes.permute_checked data T n = some (Sdes.permute data T n) := by
  induction n with
  | zero => rfl
  | succ n ih =>
    have ih1 := ih (by omega)
    obtain ⟨e, he, he1, he8⟩ := hT n (by omega)
    have hD : T.getD n 0 = e := by
      rw [List.getD_eq_getElem?_getD, ← List.get?_eq_getElem?, he]
      rfl
    rw [permute_succ, hD]
    unfold Sdes.permute_checked at ih1 ⊢
    rw [List.range_succ, List.foldlM_append, ih1]
    simp only [List.foldlM, Option.some_bind, he, get_bit_checked_eq data e he1 he8,
      set_bit_checked_eq _ (n + 1) _ (by omega) (by omega), bind, pure, Option.bind]

theorem ip_well_formed : ∀ i, i < 8 → ∃ e, Sdes.IP.get? i = some e ∧ 1 ≤ e ∧ e ≤ 8 := by
  intro i hi
  interval_cases i <;> exact ⟨_, rfl, by decide, by decide⟩

theorem ip_inverse_well_formed :
    ∀ i, i < 8 → ∃ e, Sdes.IP_inverse.get? i = some e ∧ 1 ≤ e ∧ e ≤ 8 := by
  intro i hi
  interval_cases i <;> exact ⟨_, rfl, by decide, by decide⟩

theorem encrypt_checked_eq (p k : Nat) :
    Sdes.encrypt_checked p k = some (Sdes.encrypt p k) := by
  unfold Sdes.encrypt_checked Sdes.encrypt
  rw [permute_checked_eq p Sdes.IP ip_well_formed 8 (le_refl _)]
  simp only [f_function_checked_eq]
  exact permute_checked_eq _ Sdes.IP_inverse ip_inverse_well_formed 8 (le_refl _)

/-! ## The traced search loop -/

theorem brute_force_loop_traced_unfold (p c s : Nat) :
    BruteForce.brute_force_loop_traced p c s =
      if s < 1024 then
        if BruteForce.encrypt p s = c then (some s, [s])
        else ((BruteForce.brute_force_loop_traced p c (s + 1)).1,
          s :: (BruteForce.brute_force_loop_traced p c (s + 1)).2)
      else (none, []) := by
  rw [BruteForce.brute_force_loop_traced]

/-- The traced loop returns what the loop returns. -/
theorem brute_force_loop_traced_fst (p c : Nat) :
    ∀ n s, 1024 - s = n →
      (BruteForce.brute_force_loop_traced p c s).1 = BruteForce.brute_force_loop p c s := by
  intro n
  induction n with
  | zero =>
    intro s hs
    have hge : ¬ s < 1024 := by omega
    rw [brute_force_loop_traced_unfold, brute_force_loop_unfold]
    simp only [if_neg hge]
  | succ n ih =>
    intro s hs
    have hlt : s < 1024 := by omega
    rw [brute_force_loop_traced_unfold, brute_force_loop_unfold]
    by_cases hm : BruteForce.encrypt p s = c
    · simp only [if_pos hlt, if_pos hm]
    · simp only [if_pos hlt, if_neg hm]
      exact ih (s + 1) (by omega)

/-- The calls recorded from candidate `s` on are `s, s + 1, ...`, up to the
returned key, or up to 1023 when no key is returned. -/
theorem brute_force_loop_traced_snd (p c : Nat) :
    ∀ n s, 1024 - s = n → s ≤ 1024 →
      ∃ m, (BruteForce.brute_force_loop_traced p c s).2 = List.range' s m ∧
        s + m ≤ 1024 ∧
        (∀ k, BruteForce.brute_force_loop p c s = some k → s + m = k + 1) ∧
        (BruteForce.brute_force_loop p c s = none → s + m = 1024) := by
  intro n
  induction n with
  | zero =>
    intro s hs hs2
    have hge : ¬ s < 1024 := by omega
    rw [brute_force_loop_traced_unfold, brute_force_loop_unfold]
    simp only [if_neg hge]
    refine ⟨0, rfl, by omega, fun k h => ?_, fun _ => by omega⟩
    cases h
  | succ n ih =>
    intro s hs hs2
    have hlt : s < 1024 := by omega
    rw [brute_force_loop_traced_unfold, brute_force_loop_unfold]
    by_cases hm : BruteForce.encrypt p s = c
    · simp only [if_pos hlt, if_pos hm]
      refine ⟨1, rfl, by omega, fun k h => ?_, fun h => ?_⟩
      · cases h
        rfl
      · cases h
    · simp only [if_pos hlt, if_neg hm]
      obtain ⟨m, h1, h2, h3, h4⟩ := ih (s + 1) (by omega) (by omega)
      refine ⟨m + 1, ?_, by omega, fun k h => ?_, fun h => ?_⟩
      · rw [h1]
        rfl
      · have := h3 k h
        omega
      · have := h4 h
        omega

/-! ## The round function and the Feistel rounds -/

theorem shl4_lor_eq (a b : Nat) (hb : b < 16) : (a <<< 4) ||| b = 16 * a + b := by
  have h := Nat.mul_add_lt_is_or (i := 4) (b := b) (by omega) a
  rw [Nat.shiftLeft_eq, Nat.mul_comm a (2 ^ 4), ← h]

/-- The round function in the words of the specification, for a 4-bit half. -/
theorem f_function_eq_formula (right_half key : Nat) (hr : right_half < 16) :
    Sdes.f_function right_half key =
      (Sdes.sbox_at Sdes.SBOX1
          (((((right_half <<< 4) ||| right_half) ^^^ key) >>> 6) &&& 3)
          (((((right_half <<< 4) ||| right_half) ^^^ key) >>> 4) &&& 3) <<< 2) |||
        Sdes.sbox_at Sdes.SBOX2
          (((((right_half <<< 4) ||| right_half) ^^^ key) >>> 2) &&& 3)
          ((((right_half <<< 4) ||| right_half) ^^^ key) &&& 3) := by
  unfold Sdes.f_function Sdes.split_byte
  simp only []
  have he : right_half &&& 15 = right_half := by
    rw [and_15_eq_mod, Nat.mod_eq_of_lt hr]
  rw [he, Nat.mod_eq_of_lt (shl4_lor_lt_256 hr hr)]
  generalize ((right_half <<< 4) ||| right_half) ^^^ key = x
  have hb1 := sbox1_le_3 (((x % 256) >>> 4) &&& 15) (by rw [and_15_eq_mod]; omega)
  have hb2 := sbox2_le_3 ((x % 256) &&& 15) (by rw [and_15_eq_mod]; omega)
  have h1 : (((x % 256) >>> 4) &&& 15) >>> 2 = (x >>> 6) &&& 3 := by
    simp only [Nat.shiftRight_eq_div_pow, and_15_eq_mod, and_3_eq_mod]
    norm_num
    omega
  have h2 : (((x % 256) >>> 4) &&& 15) &&& 3 = (x >>> 4) &&& 3 := by
    simp only [Nat.shiftRight_eq_div_pow, and_15_eq_mod, and_3_eq_mod]
    norm_num
    omega
  have h3 : ((x % 256) &&& 15) >>> 2 = (x >>> 2) &&& 3 := by
    simp only [Nat.shiftRight_eq_div_pow, and_15_eq_mod, and_3_eq_mod]
    norm_num
    omega
  have h4 : ((x % 256) &&& 15) &&& 3 = x &&& 3 := by
    simp only [and_15_eq_mod, and_3_eq_mod]
    omega
  rw [h1, h2] at hb1
  rw [h3, h4] at hb2
  rw [h1, h2, h3, h4]
  exact Nat.mod_eq_of_lt (lt_trans (shl2_lor_lt_16 hb1 hb2) (by decide))

/-- The round function reads only the low nibble of its first argument. -/
theorem f_function_low_nibble (right_half key : Nat) :
    Sdes.f_function right_half key = Sdes.f_function (right_half &&& 0x0F) key := by
  have h : (right_half &&& 0x0F) &&& 0x0F = right_half &&& 0x0F := by
    rw [Nat.and_assoc, Nat.and_self]
  unfold Sdes.f_function
  simp only [h]

theorem ip_inverse_then_ip (v : Nat) (hv : v < 256) :
    Sdes.permute (Sdes.permute v Sdes.IP_inverse 8) Sdes.IP 8 = v := by
  apply Nat.eq_of_testBit_eq
  intro j
  rw [testBit_permute _ _ 8 (le_refl _), testBit_permute _ _ 8 (le_refl _)]
  by_cases hj : j < 8
  · interval_cases j <;> simp [Sdes.IP, Sdes.IP_inverse]
  · have hf : v.testBit j = false := testBit_eq_false_of_lt_256 hv (by omega)
    simp [hj, hf]

/-- The two Feistel steps with one round key can be undone: the packed output
determines the two input halves. -/
theorem feistel_rounds_injective (rk L R L' R' : Nat)
    (hL : L < 16) (hR : R < 16) (hL' : L' < 16) (hR' : R' < 16)
    (h : ((L ^^^ Sdes.f_function R rk) <<< 4) |||
          (R ^^^ Sdes.f_function (L ^^^ Sdes.f_function R rk) rk) =
        ((L' ^^^ Sdes.f_function R' rk) <<< 4) |||
          (R' ^^^ Sdes.f_function (L' ^^^ Sdes.f_function R' rk) rk)) :
    L = L' ∧ R = R' := by
  have hA := xor_lt_16 hL (f_function_lt_16 R rk)
  have hA' := xor_lt_16 hL' (f_function_lt_16 R' rk)
  have hB := xor_lt_16 hR (f_function_lt_16 (L ^^^ Sdes.f_function R rk) rk)
  have hB' := xor_lt_16 hR' (f_function_lt_16 (L' ^^^ Sdes.f_function R' rk) rk)
  rw [shl4_lor_eq _ _ hB, shl4_lor_eq _ _ hB'] at h
  have e1 : L ^^^ Sdes.f_function R rk = L' ^^^ Sdes.f_function R' rk := by omega
  have e2 : R ^^^ Sdes.f_function (L ^^^ Sdes.f_function R rk) rk =
      R' ^^^ Sdes.f_function (L' ^^^ Sdes.f_function R' rk) rk := by omega
  rw [← e1] at e2
  have hRR : R = R' := Nat.xor_left_injective e2
  rw [← hRR] at e1
  exact ⟨Nat.xor_left_injective e1, hRR⟩

/-- For a fixed key, `encrypt` is injective on bytes. -/
theorem encrypt_injective (k p1 p2 : Nat) (h1 : p1 < 256) (h2 : p2 < 256)
    (h : Sdes.encrypt p1 k = Sdes.encrypt p2 k) : p1 = p2 := by
  rw [encrypt_eq_reference, encrypt_eq_reference] at h
  unfold Sdes.encrypt_reference at h
  simp only [] at h
  have hx1 := permute_lt_256 p1 Sdes.IP 8
  have hx2 := permute_lt_256 p2 Sdes.IP 8
  have hp1 := ip_then_ip_inverse p1 h1
  have hp2 := ip_then_ip_inverse p2 h2
  generalize Sdes.permute p1 Sdes.IP 8 = x1 at h hx1 hp1
  generalize Sdes.permute p2 Sdes.IP 8 = x2 at h hx2 hp2
  generalize k &&& 0xFF = rk at h
  have hL1 : x1 / 16 < 16 := by omega
  have hR1 : x1 % 16 < 16 := by omega
  have hL2 : x2 / 16 < 16 := by omega
  have hR2 : x2 % 16 < 16 := by omega
  have hy1 := shl4_lor_lt_256 (xor_lt_16 hL1 (f_function_lt_16 (x1 % 16) rk))
    (xor_lt_16 hR1 (f_function_lt_16 (x1 / 16 ^^^ Sdes.f_function (x1 % 16) rk) rk))
  have hy2 := shl4_lor_lt_256 (xor_lt_16 hL2 (f_function_lt_16 (x2 % 16) rk))
    (xor_lt_16 hR2 (f_function_lt_16 (x2 / 16 ^^^ Sdes.f_function (x2 % 16) rk) rk))
  have hy := congrArg (fun y => Sdes.permute y Sdes.IP 8) h
  simp only [] at hy
  rw [ip_inverse_then_ip _ hy1, ip_inverse_then_ip _ hy2] at hy
  obtain ⟨eL, eR⟩ := feistel_rounds_injective rk _ _ _ _ hL1 hR1 hL2 hR2 hy
  have hx : x1 = x2 := by omega
  rw [← hp1, ← hp2, hx]

/-- The halves inside `encrypt`, in closed form. -/
theorem encrypt_halves_eq (p k : Nat) :
    Sdes.encrypt_halves p k =
      ((Sdes.permute p Sdes.IP 8 / 16, Sdes.permute p Sdes.IP 8 % 16),
       (Sdes.permute p Sdes.IP 8 % 16,
        Sdes.permute p Sdes.IP 8 / 16 ^^^
          Sdes.f_function (Sdes.permute p Sdes.IP 8 % 16) (k &&& 0xFF)),
       (Sdes.permute p Sdes.IP 8 / 16 ^^^
          Sdes.f_function (Sdes.permute p Sdes.IP 8 % 16) (k &&& 0xFF),
        Sdes.permute p Sdes.IP 8 % 16 ^^^
          Sdes.f_function (Sdes.permute p Sdes.IP 8 / 16 ^^^
            Sdes.f_function (Sdes.permute p Sdes.IP 8 % 16) (k &&& 0xFF)) (k &&& 0xFF))) := by
  unfold Sdes.encrypt_halves
  have hx := permute_lt_256 p Sdes.IP 8
  simp only [split_byte_eq _ hx]
  generalize Sdes.permute p Sdes.IP 8 = x at hx
  have hk : (k &&& 0xFF) % 256 = k &&& 0xFF :=
    Nat.mod_eq_of_lt (by rw [and_255_eq_mod]; omega)
  rw [hk]
  generalize k &&& 0xFF = rk
  have hL0 : x / 16 < 16 := by omega
  have hR0 : x % 16 < 16 := by omega
  have h1 := xor_lt_16 hL0 (f_function_lt_16 (x % 16) rk)
  rw [Nat.mod_eq_of_lt (lt_trans h1 (by decide))]
  have h2 := xor_lt_16 hR0 (f_function_lt_16 (x / 16 ^^^ Sdes.f_function (x % 16) rk) rk)
  rw [Nat.mod_eq_of_lt (lt_trans h2 (by decide))]

/-- The function `encrypt` packs and permutes the last pair of `encrypt_halves`. -/
theorem encrypt_eq_of_halves (p k : Nat) :
    Sdes.encrypt p k =
      Sdes.permute
        (Sdes.combine_bytes (Sdes.encrypt_halves p k).2.2.1 (Sdes.encrypt_halves p k).2.2.2)
        Sdes.IP_inverse 8 := rfl

/-! ## Keys with the same ciphertext -/

theorem mem_matching_keys (p k k' : Nat) :
    k' ∈ (Finset.range 1024).filter (fun j => Sdes.encrypt p j = Sdes.encrypt p k) ↔
      k' < 1024 ∧ Sdes.encrypt p (k' % 256) = Sdes.encrypt p (k % 256) := by
  rw [Finset.mem_filter, Finset.mem_range, ← encrypt_key_mod, ← encrypt_key_mod]

theorem mem_matching_low_bytes (p k b : Nat) :
    b ∈ (Finset.range 256).filter (fun j => Sdes.encrypt p j = Sdes.encrypt p k) ↔
      b < 256 ∧ Sdes.encrypt p b = Sdes.encrypt p k := by
  rw [Finset.mem_filter, Finset.mem_range]

/-- The matching keys below 1024 are the matching low bytes with the two high
bits free. -/
theorem matching_keys_eq_image (p k : Nat) :
    (Finset.range 1024).filter (fun j => Sdes.encrypt p j = Sdes.encrypt p k) =
      (((Finset.range 256).filter (fun j => Sdes.encrypt p j = Sdes.encrypt p k)) ×ˢ
        Finset.range 4).image (fun bh => bh.1 + 256 * bh.2) := by
  ext k'
  rw [Finset.mem_filter, Finset.mem_range, Finset.mem_image]
  constructor
  · rintro ⟨h1, h2⟩
    refine ⟨(k' % 256, k' / 256), ?_, by simp only []; omega⟩
    rw [Finset.mem_product, mem_matching_low_bytes, Finset.mem_range]
    refine ⟨⟨by omega, ?_⟩, by simp only []; omega⟩
    simp only []
    rw [← encrypt_key_mod]
    exact h2
  · rintro ⟨⟨b, h⟩, hm, rfl⟩
    rw [Finset.mem_product, mem_matching_low_bytes, Finset.mem_range] at hm
    obtain ⟨⟨hb, he⟩, hh⟩ := hm
    simp only [] at hb he hh ⊢
    refine ⟨by omega, ?_⟩
    rw [encrypt_key_mod p (b + 256 * h)]
    have : (b + 256 * h) % 256 = b := by omega
    rw [this]
    exact he

theorem matching_keys_card (p k : Nat) :
    ((Finset.range 1024).filter (fun j => Sdes.encrypt p j = Sdes.encrypt p k)).card =
      4 * ((Finset.range 256).filter (fun j => Sdes.encrypt p j = Sdes.encrypt p k)).card := by
  rw [matching_keys_eq_image, Finset.card_image_of_injOn, Finset.card_product,
    Finset.card_range, Nat.mul_comm]
  rintro ⟨b, h⟩ hm ⟨b', h'⟩ hm' heq
  rw [Finset.mem_coe, Finset.mem_product, mem_matching_low_bytes, Finset.mem_range] at hm hm'
  simp only [] at hm hm' heq
  obtain ⟨⟨hb, _⟩, _⟩ := hm
  obtain ⟨⟨hb', _⟩, _⟩ := hm'
  have e1 : b = b' := by omega
  have e2 : h = h' := by omega
  rw [e1, e2]

theorem matching_low_bytes_card_pos (p k : Nat) :
    1 ≤ ((Finset.range 256).filter (fun j => Sdes.encrypt p j = Sdes.encrypt p k)).card := by
  apply Finset.card_pos.2
  refine ⟨k % 256, ?_⟩
  rw [mem_matching_low_bytes]
  exact ⟨Nat.mod_lt _ (by decide), (encrypt_key_mod p k).symm⟩

/-- A returned key is a low byte: the least matching key is below 256. -/
theorem recover_key_lt_256 (p c k : Nat) (h : BruteForce.recover_key p c = some k) :
    k < 256 := by
  obtain ⟨_, h2, h3⟩ := (recover_key_eq_some_iff p c k).1 h
  by_contra hge
  apply h3 (k % 256) (by omega)
  rw [bruteforce_encrypt_eq] at h2 ⊢
  rw [← encrypt_key_mod]
  exact h2

theorem recover_key_traced_spec (p c : Nat) :
    (BruteForce.recover_key_traced p c).1 = BruteForce.recover_key p c ∧
    ∃ n, (BruteForce.recover_key_traced p c).2 = List.range n ∧ n ≤ 1024 ∧
      (∀ k, BruteForce.recover_key p c = some k → n = k + 1) ∧
      (BruteForce.recover_key p c = none → n = 1024) := by
  unfold BruteForce.recover_key_traced BruteForce.recover_key
  refine ⟨brute_force_loop_traced_fst p c 1024 0 rfl, ?_⟩
  obtain ⟨m, h1, h2, h3, h4⟩ := brute_force_loop_traced_snd p c 1024 0 rfl (by decide)
  refine ⟨m, ?_, by omega, fun k hk => ?_, fun hn => ?_⟩
  · rw [h1, List.range_eq_range']
  · have := h3 k hk
    omega
  · have := h4 hn
    omega

/-- The checks of the checked cipher are real: reading a ninth table entry,
or a bit position 9, fails. -/
theorem checked_cipher_can_fail (data : Nat) :
    Sdes.permute_checked data Sdes.IP 9 = none ∧
    Sdes.get_bit_checked data 9 = none ∧
    Sdes.get_bit_checked data 0 = none ∧
    Sdes.sbox_at_checked Sdes.SBOX1 4 0 = none ∧
    Sdes.sbox_at_checked Sdes.SBOX2 0 4 = none := by
  refine ⟨?_, rfl, rfl, rfl, rfl⟩
  unfold Sdes.permute_checked
  rw [List.range_succ, List.foldlM_append]
  have h := permute_checked_eq data Sdes.IP ip_well_formed 8 (le_refl _)
  unfold Sdes.permute_checked at h
  rw [h]
  rfl

/-! ## The claims, continued -/

/-- C11 (encrypt is total): for every plaintext and key (every byte and every
key in `0..1023` in particular), the cipher with every table read and every
bit position checked never takes a failure branch: it returns the value of
`encrypt`, and that value is below 256. -/
theorem C11_encrypt_total (p k : Nat) :
    Sdes.encrypt_checked p k = some (Sdes.encrypt p k) ∧ Sdes.encrypt p k < 256 := by
  refine ⟨encrypt_checked_eq p k, ?_⟩
  unfold Sdes.encrypt
  exact permute_lt_256 _ _ 8

/-- C12 (exhaustiveness bound): for every plaintext `p` and target `c`, the
search (a total function) calls `encrypt` on the candidates `0, 1, ..., n - 1`
in this order for some `n ≤ 1024`: `n = k + 1` when key `k` is returned and
`n = 1024` when no key is returned. -/
theorem C12_exhaustiveness_bound (p c : Nat) :
    (BruteForce.recover_key_traced p c).1 = BruteForce.recover_key p c ∧
    (BruteForce.recover_key_traced p c).2.length ≤ 1024 ∧
    ∃ n, (BruteForce.recover_key_traced p c).2 = List.range n ∧ n ≤ 1024 ∧
      (∀ k, BruteForce.recover_key p c = some k → n = k + 1) ∧
      (BruteForce.recover_key p c = none → n = 1024) := by
  obtain ⟨h0, n, h1, h2, h3, h4⟩ := recover_key_traced_spec p c
  refine ⟨h0, ?_, n, h1, h2, h3, h4⟩
  rw [h1, List.length_range]
  exact h2

/-- C13, as stated, fails: for plaintext `0xD7` and key `130` more than 4 keys
below 1024 give the same ciphertext, among them `133`, whose low byte differs
from that of `130`. -/
theorem C13_counterexample :
    130 < 1024 ∧
    ((Finset.range 1024).filter
      (fun j => Sdes.encrypt 215 j = Sdes.encrypt 215 130)).card ≠ 4 ∧
    133 ∈ (Finset.range 1024).filter (fun j => Sdes.encrypt 215 j = Sdes.encrypt 215 130) ∧
    133 % 256 ≠ 130 % 256 := by
  have hsub : ({130, 133, 386, 389, 642} : Finset Nat) ⊆
      (Finset.range 1024).filter (fun j => Sdes.encrypt 215 j = Sdes.encrypt 215 130) := by
    intro x hx
    simp only [Finset.mem_insert, Finset.mem_singleton] at hx
    rw [Finset.mem_filter, Finset.mem_range]
    rcases hx with rfl | rfl | rfl | rfl | rfl <;> exact ⟨by decide, by decide⟩
  have hcard := Finset.card_le_card hsub
  have h5 : ({130, 133, 386, 389, 642} : Finset Nat).card = 5 := by decide
  rw [h5] at hcard
  refine ⟨by decide, by omega, hsub (by decide), by decide⟩

/-- C13 (amended): for every plaintext `p` and key `k`, a key `j` below 1024
gives the ciphertext of `k` exactly when its low byte does; the 4 keys sharing
the low 8 bits of `k` are among them; and the number of such keys is 4 times
the number of low bytes `0..255` giving that ciphertext, hence at least 4. -/
theorem C13_matching_keys (p k : Nat) :
    (∀ j, j ∈ (Finset.range 1024).filter (fun j => Sdes.encrypt p j = Sdes.encrypt p k) ↔
      j < 1024 ∧ Sdes.encrypt p (j % 256) = Sdes.encrypt p (k % 256)) ∧
    (∀ h, h < 4 → k % 256 + 256 * h ∈
      (Finset.range 1024).filter (fun j => Sdes.encrypt p j = Sdes.encrypt p k)) ∧
    ((Finset.range 1024).filter (fun j => Sdes.encrypt p j = Sdes.encrypt p k)).card =
      4 * ((Finset.range 256).filter
        (fun j => Sdes.encrypt p j = Sdes.encrypt p k)).card ∧
    4 ≤ ((Finset.range 1024).filter
      (fun j => Sdes.encrypt p j = Sdes.encrypt p k)).card := by
  refine ⟨mem_matching_keys p k, fun h hh => ?_, matching_keys_card p k, ?_⟩
  · rw [mem_matching_keys]
    refine ⟨by omega, ?_⟩
    congr 1
    omega
  · rw [matching_keys_card]
    have := matching_low_bytes_card_pos p k
    omega

/-- C14 (round function equals its specification): for every `right_half` in
`0..15` and every key, with `x = ((right_half << 4) | right_half) XOR key`,
`f_function right_half key` is
`(SBOX1[(x >> 6) & 3][(x >> 4) & 3] << 2) | SBOX2[(x >> 2) & 3][x & 3]`; and two
first arguments with the same low nibble give the same result. -/
theorem C14_round_function_formula (right_half key r1 r2 : Nat)
    (hr : right_half < 16) (hlow : r1 &&& 0x0F = r2 &&& 0x0F) :
    Sdes.f_function right_half key =
      (Sdes.sbox_at Sdes.SBOX1
          (((((right_half <<< 4) ||| right_half) ^^^ key) >>> 6) &&& 3)
          (((((right_half <<< 4) ||| right_half) ^^^ key) >>> 4) &&& 3) <<< 2) |||
        Sdes.sbox_at Sdes.SBOX2
          (((((right_half <<< 4) ||| right_half) ^^^ key) >>> 2) &&& 3)
          ((((right_half <<< 4) ||| right_half) ^^^ key) &&& 3) ∧
    Sdes.f_function r1 key = Sdes.f_function (r1 &&& 0x0F) key ∧
    Sdes.f_function r1 key = Sdes.f_function r2 key := by
  refine ⟨f_function_eq_formula right_half key hr, f_function_low_nibble r1 key, ?_⟩
  rw [f_function_low_nibble r1 key, f_function_low_nibble r2 key, hlow]

theorem C14_round_function_formula_witness :
    7 < 16 ∧ 23 &&& 0x0F = 7 &&& 0x0F ∧
    (Sdes.f_function 7 130 =
      (Sdes.sbox_at Sdes.SBOX1
          (((((7 <<< 4) ||| 7) ^^^ 130) >>> 6) &&& 3)
          (((((7 <<< 4) ||| 7) ^^^ 130) >>> 4) &&& 3) <<< 2) |||
        Sdes.sbox_at Sdes.SBOX2
          (((((7 <<< 4) ||| 7) ^^^ 130) >>> 2) &&& 3)
          ((((7 <<< 4) ||| 7) ^^^ 130) &&& 3) ∧
      Sdes.f_function 23 130 = Sdes.f_function (23 &&& 0x0F) 130 ∧
      Sdes.f_function 23 130 = Sdes.f_function 7 130) :=
  ⟨by decide, by decide, C14_round_function_formula 7 130 23 7 (by decide) (by decide)⟩

/-- C15 (the two copies agree): for every plaintext `p` and key `k`, `encrypt`
of `sdes.c` and `encrypt` of `brute_force.c` return the same byte, their tables
are the same, and a key returned by the search encrypts the plaintext to the
target under the cipher of `sdes.c`. -/
theorem C15_copies_agree (p k : Nat) :
    Sdes.encrypt p k = BruteForce.encrypt p k ∧
    Sdes.IP = BruteForce.IP ∧ Sdes.IP_inverse = BruteForce.IP_inverse ∧
    Sdes.SBOX1 = BruteForce.SBOX1 ∧ Sdes.SBOX2 = BruteForce.SBOX2 ∧
    (∀ c k0, BruteForce.recover_key p c = some k0 → Sdes.encrypt p k0 = c) := by
  refine ⟨(bruteforce_encrypt_eq p k).symm, rfl, rfl, rfl, rfl, fun c k0 h => ?_⟩
  rw [← bruteforce_encrypt_eq]
  exact ((recover_key_eq_some_iff p c k0).1 h).2.1

/-- C16 (bijection in the plaintext): for every key `k`, `encrypt · k` maps
bytes to bytes, is injective on bytes (`encrypt p1 k = encrypt p2 k` implies
`p1 = p2`), and reaches every byte `c`. -/
theorem C16_encrypt_bijective (k p1 p2 c : Nat)
    (h1 : p1 < 256) (h2 : p2 < 256) (hc : c < 256) :
    (Sdes.encrypt p1 k = Sdes.encrypt p2 k → p1 = p2) ∧
    Sdes.encrypt p1 k < 256 ∧
    ∃ p, p < 256 ∧ Sdes.encrypt p k = c := by
  have hlt : ∀ p, Sdes.encrypt p k < 256 := fun p => by
    unfold Sdes.encrypt
    exact permute_lt_256 _ _ 8
  refine ⟨encrypt_injective k p1 p2 h1 h2, hlt p1, ?_⟩
  have hinj : Function.Injective
      (fun x : Fin 256 => (⟨Sdes.encrypt x.val k, hlt x.val⟩ : Fin 256)) := by
    intro a b hab
    have := congrArg Fin.val hab
    exact Fin.ext (encrypt_injective k a.val b.val a.isLt b.isLt this)
  obtain ⟨x, hx⟩ := (Finite.injective_iff_surjective.1 hinj) ⟨c, hc⟩
  exact ⟨x.val, x.isLt, congrArg Fin.val hx⟩

theorem C16_encrypt_bijective_witness :
    215 < 256 ∧ 40 < 256 ∧ 27 < 256 ∧
    ((Sdes.encrypt 215 130 = Sdes.encrypt 40 130 → 215 = 40) ∧
      Sdes.encrypt 215 130 < 256 ∧
      ∃ p, p < 256 ∧ Sdes.encrypt p 130 = 27) :=
  ⟨by decide, by decide, by decide,
    C16_encrypt_bijective 130 215 40 27 (by decide) (by decide) (by decide)⟩

set_option maxRecDepth 100000 in
theorem no_low_byte_reaches_zero : ∀ b, b < 256 → Sdes.encrypt 215 b ≠ 0 := by
  decide

/-- C17 (some targets are unachievable): for plaintext `0xD7` and target `0`
no key below 1024 encrypts the plaintext to the target, so the search calls
`encrypt` on all of `0, ..., 1023` and reports no key. -/
theorem C17_unachievable_target :
    ∃ p c, p < 256 ∧ c < 256 ∧
      (∀ k, k < 1024 → BruteForce.encrypt p k ≠ c) ∧
      BruteForce.recover_key p c = none ∧
      (BruteForce.recover_key_traced p c).2 = List.range 1024 := by
  have hlow := no_low_byte_reaches_zero
  have hall : ∀ k, k < 1024 → BruteForce.encrypt 215 k ≠ 0 := by
    intro k _
    rw [bruteforce_encrypt_eq, encrypt_key_mod]
    exact hlow (k % 256) (Nat.mod_lt _ (by decide))
  have hnone := (recover_key_eq_none_iff 215 0).2 hall
  obtain ⟨_, n, h1, _, _, h4⟩ := recover_key_traced_spec 215 0
  refine ⟨215, 0, by decide, by decide, hall, hnone, ?_⟩
  rw [h1, h4 hnone]

/-- C18 (a recovered key fits in 8 bits): if the search on plaintext `p` and
target `c` returns a key `k`, then `k < 256`, and the candidates on which
`encrypt` was called are `0, ..., k`, none of them above 255. -/
theorem C18_recovered_key_fits_byte (p c k : Nat)
    (h : BruteForce.recover_key p c = some k) :
    k < 256 ∧
    (BruteForce.recover_key_traced p c).2 = List.range (k + 1) ∧
    ∀ j, j ∈ (BruteForce.recover_key_traced p c).2 → j ≤ 255 := by
  have hk := recover_key_lt_256 p c k h
  obtain ⟨_, n, h1, _, h3, _⟩ := recover_key_traced_spec p c
  rw [h1, h3 k h]
  refine ⟨hk, rfl, fun j hj => ?_⟩
  rw [List.mem_range] at hj
  omega

theorem C18_recovered_key_fits_byte_witness :
    BruteForce.recover_key 215 27 = some 130 ∧
    (130 < 256 ∧
      (BruteForce.recover_key_traced 215 27).2 = List.range (130 + 1) ∧
      ∀ j, j ∈ (BruteForce.recover_key_traced 215 27).2 → j ≤ 255) :=
  have h : BruteForce.recover_key 215 27 = some 130 :=
    (recover_key_eq_some_iff 215 27 130).2 ⟨by decide, by decide, by decide⟩
  ⟨h, C18_recovered_key_fits_byte 215 27 130 h⟩

/-- C19 (nibble invariant): for every plaintext and key, the halves inside
`encrypt` after the split, after round one and after round two are all below
16; `encrypt` is the final permutation of `combine_bytes` of the last pair; the
truncation in `combine_bytes` drops nothing; and `split_byte` of the combined
byte gives the pair back. -/
theorem C19_nibble_invariant (p k : Nat) :
    ((Sdes.encrypt_halves p k).1.1 < 16 ∧ (Sdes.encrypt_halves p k).1.2 < 16) ∧
    ((Sdes.encrypt_halves p k).2.1.1 < 16 ∧ (Sdes.encrypt_halves p k).2.1.2 < 16) ∧
    ((Sdes.encrypt_halves p k).2.2.1 < 16 ∧ (Sdes.encrypt_halves p k).2.2.2 < 16) ∧
    Sdes.encrypt p k =
      Sdes.permute
        (Sdes.combine_bytes (Sdes.encrypt_halves p k).2.2.1 (Sdes.encrypt_halves p k).2.2.2)
        Sdes.IP_inverse 8 ∧
    Sdes.combine_bytes (Sdes.encrypt_halves p k).2.2.1 (Sdes.encrypt_halves p k).2.2.2 =
      ((Sdes.encrypt_halves p k).2.2.1 <<< 4) ||| (Sdes.encrypt_halves p k).2.2.2 ∧
    Sdes.split_byte
        (Sdes.combine_bytes (Sdes.encrypt_halves p k).2.2.1
          (Sdes.encrypt_halves p k).2.2.2) =
      ((Sdes.encrypt_halves p k).2.2.1, (Sdes.encrypt_halves p k).2.2.2) := by
  refine ⟨?_, ?_, ?_, encrypt_eq_of_halves p k, ?_⟩
  · rw [encrypt_halves_eq]
    have := permute_lt_256 p Sdes.IP 8
    exact ⟨by simp only []; omega, by simp only []; omega⟩
  · rw [encrypt_halves_eq]
    have := permute_lt_256 p Sdes.IP 8
    exact ⟨by simp only []; omega,
      xor_lt_16 (by omega) (f_function_lt_16 _ _)⟩
  · rw [encrypt_halves_eq]
    have := permute_lt_256 p Sdes.IP 8
    exact ⟨xor_lt_16 (by omega) (f_function_lt_16 _ _),
      xor_lt_16 (by omega) (f_function_lt_16 _ _)⟩
  · rw [encrypt_halves_eq]
    simp only []
    have hx := permute_lt_256 p Sdes.IP 8
    have hA := xor_lt_16 (by omega : Sdes.permute p Sdes.IP 8 / 16 < 16)
      (f_function_lt_16 (Sdes.permute p Sdes.IP 8 % 16) (k &&& 0xFF))
    generalize Sdes.permute p Sdes.IP 8 / 16 ^^^
      Sdes.f_function (Sdes.permute p Sdes.IP 8 % 16) (k &&& 0xFF) = A at hA
    have hB := xor_lt_16 (by omega : Sdes.permute p Sdes.IP 8 % 16 < 16)
      (f_function_lt_16 A (k &&& 0xFF))
    generalize Sdes.permute p Sdes.IP 8 % 16 ^^^ Sdes.f_function A (k &&& 0xFF) = B at hB
    have hc : Sdes.combine_bytes A B = (A <<< 4) ||| B := by
      unfold Sdes.combine_bytes
      exact Nat.mod_eq_of_lt (shl4_lor_lt_256 hA hB)
    refine ⟨hc, ?_⟩
    rw [hc, split_byte_eq _ (shl4_lor_lt_256 hA hB), shl4_lor_eq A B hB]
    congr 1 <;> omega
